import Mathlib

/-!
Formal model of the EfsTA global-analysis fitting engine (`src/Model.py`,
`src/Controller.py`).  Numeric code is embedded over `ℚ` (exact arithmetic)
except for the exponential basis, which lives over `ℝ`.  External numerical
primitives (numpy's `linalg.inv`, scipy's `solve_ivp`, lmfit's `minimize` /
`fit_report`) are modelled by their documented interfaces: `linalg.inv`
raises on an exactly singular input, `solve_ivp` returns a status plus a
(possibly truncated) solution array, `minimize` returns a success flag and
parameter values, and `fit_report` renders fitting statistics and variable
values (no success flag).
-/

open Matrix

namespace EfsTA

/-! ### Python call semantics for the Controller entry points

`Controller.calcDAS` (Controller.py lines 90-91) and `Controller.calcSAS`
(lines 150-152) construct `Model` with eight positional arguments, while
`Model.__init__` (Model.py line 20) declares six parameters besides `self`
(`csv_filename, d_limits, l_limits, model, opt_method, ivp_method`) and no
defaults.  Python binds positional arguments before executing the body and
raises `TypeError` on an arity mismatch; `Model_init` models that binding
step, abstracting the body (file I/O, out of scope) as the identity.
-/

/-- An opaque-free model of Python runtime values, enough to write down the
argument lists that the Controller passes to the `Model` constructor. -/
inductive PyVal
  | str (s : String)
  | num (q : ℚ)
  | intv (z : ℤ)
  | listv (l : List PyVal)
  | noneV

inductive PyError
  | typeError
deriving DecidableEq

/-- The declared parameters of `Model.__init__` (Model.py line 20), excluding
`self`. -/
def Model_init_params : List String :=
  ["csv_filename", "d_limits", "l_limits", "model", "opt_method", "ivp_method"]

/-- Python positional-argument binding for a call to `Model(...)`: the call
succeeds only when the argument count matches the declared parameter count
(there are no default values), otherwise it raises `TypeError` before the
body runs. -/
def Model_init (args : List PyVal) : Except PyError (List PyVal) :=
  if args.length = Model_init_params.length then Except.ok args
  else Except.error PyError.typeError

/-- The positional argument list of the `Model(...)` call inside
`Controller.calcDAS` (Controller.py lines 90-91): the three filenames, the
two limit pairs, the literal model `0`, the optimizer method, and `None`. -/
def calcDAS_Model_args
    (delays_filename spectra_filename lambdas_filename d_limits l_limits opt_method : PyVal) :
    List PyVal :=
  [delays_filename, spectra_filename, lambdas_filename, d_limits, l_limits,
   PyVal.intv 0, opt_method, PyVal.noneV]

/-- `Controller.calcDAS` up to the `Model(...)` construction: the constructor
call happens first, and only if it succeeds does the rest of the method
(`getM`, `findTau_fit`, ... — abstracted as `fitting`) run. -/
def calcDAS {α : Type}
    (delays_filename spectra_filename lambdas_filename d_limits l_limits opt_method : PyVal)
    (fitting : List PyVal → α) : Except PyError α :=
  (Model_init (calcDAS_Model_args delays_filename spectra_filename lambdas_filename
      d_limits l_limits opt_method)).map fitting

/-- The positional argument list of the `Model(...)` call inside
`Controller.calcSAS` (Controller.py lines 150-152). -/
def calcSAS_Model_args
    (delays_filename spectra_filename lambdas_filename d_limits l_limits model opt_method ivp_method : PyVal) :
    List PyVal :=
  [delays_filename, spectra_filename, lambdas_filename, d_limits, l_limits,
   model, opt_method, ivp_method]

/-- `Controller.calcSAS` up to the `Model(...)` construction. -/
def calcSAS {α : Type}
    (delays_filename spectra_filename lambdas_filename d_limits l_limits model opt_method ivp_method : PyVal)
    (fitting : List PyVal → α) : Except PyError α :=
  (Model_init (calcSAS_Model_args delays_filename spectra_filename lambdas_filename
      d_limits l_limits model opt_method ivp_method)).map fitting

/-! ### `Model.solveDiff` (Model.py lines 308-330)

`solveDiff` calls `scipy.integrate.solve_ivp` and returns `Z.get("y")`
directly.  The scipy solver is external: its documented outcome is a result
object carrying a `status` field (`0` on success, `-1` when integration
failed) and the array `y` of the solution at the time points it managed to
reach — truncated when integration fails.  `solveDiff` never inspects
`status`; its return type is the plain concentration array, with no error
channel. -/

/-- The documented observable outcome of a `scipy.integrate.solve_ivp` call:
termination status and the (possibly truncated) solution array. -/
structure IvpResult where
  status : ℤ
  y : List (List ℚ)
deriving DecidableEq

/-- `Model.solveDiff`: runs the external IVP solver on the kinetic matrix
and returns the `y` field of its result unconditionally. -/
def solveDiff {s : ℕ} (K : Matrix (Fin s) (Fin s) ℚ) (ivp_method : String)
    (solve_ivp : Matrix (Fin s) (Fin s) ℚ → String → IvpResult) : List (List ℚ) :=
  (solve_ivp K ivp_method).y

/-- A failed integration outcome: status `-1`, with the single species'
concentration curve truncated to 2 of the 3 requested delay points. -/
def failing_ivp : IvpResult := ⟨-1, [[1, 1/2]]⟩

/-- The delay axis of the failed-integration example: 3 requested points. -/
def delays_example : List ℚ := [0, 1, 2]

/-! ### LinearReconstructor: `Model.calcD_tau` and `Model.calcA_tau` -/

/-- The error numpy's `linalg.inv` raises on a singular input
(`numpy.linalg.LinAlgError: Singular matrix`); the spec's error taxonomy
calls this condition SingularBasis. -/
inductive LinAlgError
  | singularMatrix
deriving DecidableEq

/-- numpy's `linalg.inv` by its documented contract: raises `LinAlgError`
when the matrix is singular, otherwise returns the inverse (written here as
`det⁻¹ • adjugate`, which is the matrix inverse). -/
def npLinalgInv {c : ℕ} (B : Matrix (Fin c) (Fin c) ℚ) :
    Except LinAlgError (Matrix (Fin c) (Fin c) ℚ) :=
  if B.det = 0 then Except.error LinAlgError.singularMatrix
  else Except.ok (B.det⁻¹ • B.adjugate)

/-- `Model.calcD_tau` (Model.py lines 505-525):
`res1 = spectra @ M.T; res2 = M @ M.T; inv = np.linalg.inv(res2);
D_tau = res1 @ inv`. -/
def calcD_tau {w d c : ℕ} (spectra : Matrix (Fin w) (Fin d) ℚ)
    (M : Matrix (Fin c) (Fin d) ℚ) :
    Except LinAlgError (Matrix (Fin w) (Fin c) ℚ) :=
  (npLinalgInv (M * Mᵀ)).map fun inv => spectra * Mᵀ * inv

/-- `Model.calcA_tau` (Model.py lines 527-544): `A_tau = D_tau @ M`. -/
def calcA_tau {w d c : ℕ} (spectra : Matrix (Fin w) (Fin d) ℚ)
    (M : Matrix (Fin c) (Fin d) ℚ) :
    Except LinAlgError (Matrix (Fin w) (Fin d) ℚ) :=
  (calcD_tau spectra M).map fun D => D * M

/-- Squared Frobenius norm of a matrix. -/
def frobSq {a b : ℕ} (X : Matrix (Fin a) (Fin b) ℚ) : ℚ :=
  ∑ i, ∑ j, (X i j)^2

/-- Entrywise (Frobenius) inner product of two matrices. -/
def minner {a b : ℕ} (X Y : Matrix (Fin a) (Fin b) ℚ) : ℚ :=
  ∑ i, ∑ j, X i j * Y i j

/-! ### BasisGenerator, DAS branch: `Model.genE_tau` (Model.py lines 235-259)

The double loop fills `E_tau[i][j] = -delays[j] / tau[i]` and then applies
`np.exp` elementwise, so row `i` is `exp(-t / tau[i])` sampled on the delay
axis. -/

noncomputable def genE_tau (tau delays : List ℝ) :
    Matrix (Fin tau.length) (Fin delays.length) ℝ :=
  Matrix.of fun i j => Real.exp (-(delays.get j) / tau.get i)

/-! ### CustomTopologyCodec: `Model.getM_lin` and `Model.regenM` -/

/-- The row-major traversal order of an `m × m` matrix, matching the nested
`for i ... for j ...` loops of `getM_lin` and `regenM`. -/
def rowMajor (m : ℕ) : List (Fin m × Fin m) :=
  (List.finRange m) ×ˢ (List.finRange m)

/-- Assignment to one cell of a matrix (`M[i][j] = v`). -/
def updCell {m : ℕ} (M : Matrix (Fin m) (Fin m) ℚ) (i j : Fin m) (v : ℚ) :
    Matrix (Fin m) (Fin m) ℚ :=
  fun a b => if a = i ∧ b = j then v else M a b

/-- The body of `regenM`'s double loop at a masked cell `p`, acting on the
state (matrix built so far, counter `a` into the flat vector): assign
`tau_guess[a]` at `p`; when `p` lies outside the last column, subtract that
value from the diagonal cell of `p`'s column; advance the counter. -/
def regenStep {n : ℕ} (tau_guess : List ℚ)
    (st : Matrix (Fin (n+1)) (Fin (n+1)) ℚ × ℕ) (p : Fin (n+1) × Fin (n+1)) :
    Matrix (Fin (n+1)) (Fin (n+1)) ℚ × ℕ :=
  let v := tau_guess.getD st.2 0
  let M1 := updCell st.1 p.1 p.2 v
  let M2 := if p.2 ≠ Fin.last n then updCell M1 p.2 p.2 (M1 p.2 p.2 - v) else M1
  (M2, st.2 + 1)

/-- `Model.regenM` before its last line: scan all cells in row-major order,
processing the masked ones with `regenStep`, starting from the zero matrix
and counter 0. -/
def regenMPre {n : ℕ} (m_ones : Matrix (Fin (n+1)) (Fin (n+1)) Bool)
    (tau_guess : List ℚ) : Matrix (Fin (n+1)) (Fin (n+1)) ℚ :=
  ((rowMajor (n+1)).foldl
    (fun st p => if m_ones p.1 p.2 then regenStep tau_guess st p else st)
    (0, 0)).1

/-- `Model.regenM` (Model.py lines 399-425): rebuild the custom matrix from
the flat fitted vector and the stored mask, then, as the final statement,
negate the bottom-right diagonal cell (`M[-1][-1] *= -1`). -/
def regenM {n : ℕ} (m_ones : Matrix (Fin (n+1)) (Fin (n+1)) Bool)
    (tau_guess : List ℚ) : Matrix (Fin (n+1)) (Fin (n+1)) ℚ :=
  updCell (regenMPre m_ones tau_guess) (Fin.last n) (Fin.last n)
    (-(regenMPre m_ones tau_guess (Fin.last n) (Fin.last n)))

/-- The `k_guess` array of `Model.getM_lin` after the loop's diagonal
zeroing: the guarded elementwise reciprocal
`np.divide(ones, tau_guess, out=zeros, where=tau_guess!=0)` of the user
matrix, with every diagonal cell except the last forced to zero.  (Each
loop iteration reads and writes only its own cell, so the in-place zeroing
is cell-local.) -/
def k_guess_zeroed {n : ℕ} (tau_mat : Matrix (Fin (n+1)) (Fin (n+1)) ℚ) :
    Matrix (Fin (n+1)) (Fin (n+1)) ℚ :=
  fun i j =>
    if i = j ∧ i ≠ Fin.last n then 0
    else if tau_mat i j ≠ 0 then 1 / tau_mat i j else 0

/-- The structural mask `self.M_ones` recorded by `Model.getM_lin`: a cell
is marked exactly when its zeroed `k_guess` entry is nonzero. -/
def M_ones {n : ℕ} (tau_mat : Matrix (Fin (n+1)) (Fin (n+1)) ℚ) :
    Matrix (Fin (n+1)) (Fin (n+1)) Bool :=
  fun i j => decide (k_guess_zeroed tau_mat i j ≠ 0)

/-- The cells a mask marks, in the row-major order in which the loops of
`getM_lin` and `regenM` visit them. -/
def maskedCells {n : ℕ} (m_ones : Matrix (Fin (n+1)) (Fin (n+1)) Bool) :
    List (Fin (n+1) × Fin (n+1)) :=
  (rowMajor (n+1)).filter fun p => m_ones p.1 p.2

/-- The flat list `M_lin` built by `Model.getM_lin`: the absolute values of
the nonzero zeroed `k_guess` entries, appended in row-major order. -/
def M_lin {n : ℕ} (tau_mat : Matrix (Fin (n+1)) (Fin (n+1)) ℚ) : List ℚ :=
  (maskedCells (M_ones tau_mat)).map
    fun p => |k_guess_zeroed tau_mat p.1 p.2|

/-- `Model.getM_lin`'s return value (Model.py lines 366-397): the
elementwise reciprocal `1 / np.array(M_lin)` of the flat rate list. -/
def getM_lin {n : ℕ} (tau_mat : Matrix (Fin (n+1)) (Fin (n+1)) ℚ) : List ℚ :=
  (M_lin tau_mat).map fun k => 1 / k

/-! ### Fitter: `Model.getTauBounds` and `Model.findTau_fit` -/

/-- The model selector: `0` (DAS/GLA), a preset kinetic model `1`-`8`, or
one of the two custom variants. -/
inductive ModelSel
  | das
  | preset (k : ℕ)
  | customModel
  | customMatrix
deriving DecidableEq

/-- `Model.getTauBounds` (Model.py lines 458-477): for model `0` every
parameter gets the bounds `(0.01, None)`; otherwise the stored user bounds
`tau_low`/`tau_high` are zipped. -/
def getTauBounds (model : ModelSel) (tau_low tau_high : List (Option ℚ)) (m : ℕ) :
    List (Option ℚ × Option ℚ) :=
  match model with
  | ModelSel.das => List.replicate m (some (1/100), Option.none)
  | _ => tau_low.zip tau_high

/-- One lmfit optimizer parameter as created by `params.add`: start value,
lower/upper bound, vary flag. -/
structure ParamSpec where
  value : ℚ
  lo : Option ℚ
  hi : Option ℚ
  vary : Bool
deriving DecidableEq

/-- The parameter set that `Model.findTau_fit` (Model.py lines 593-599)
hands to the minimizer.  The per-entry loop is commented out in the source;
the live code is the single call
`params.add('tau0', preparam[1][0], min=bounds[0][0], max=bounds[0][1],
vary=preparam[1][1])`: one parameter, whose start value and vary flag come
from `preparam[1]` and whose bounds come from `bounds[0]`. -/
def findTau_fit_params (preparam : List (ℚ × Bool))
    (bounds : List (Option ℚ × Option ℚ)) : List ParamSpec :=
  [⟨(preparam.getD 1 (0, false)).1,
    (bounds.getD 0 (Option.none, Option.none)).1,
    (bounds.getD 0 (Option.none, Option.none)).2,
    (preparam.getD 1 (0, false)).2⟩]

/-- The observable outcome of lmfit's `minimize`: a success flag, the final
parameter values, and the statistics that `fit_report` renders. -/
structure MinimizeResult where
  success : Bool
  params : List ℚ
  nfev : ℕ
  chisqr : ℚ
deriving DecidableEq

/-- What lmfit's `fit_report` renders: fitting statistics (function
evaluations, chi-square) and the variable values.  Its documented output
carries no success flag. -/
structure FitReport where
  nfev : ℕ
  chisqr : ℚ
  params : List ℚ
deriving DecidableEq

/-- lmfit's `fit_report`, modelled by the data its documented output
renders. -/
def fit_report (res : MinimizeResult) : FitReport :=
  ⟨res.nfev, res.chisqr, res.params⟩

/-- The value `(tau_sum, fit_rep)` returned by `Model.findTau_fit`
(Model.py lines 600-611): the fitted parameter values — re-inflated through
`regenM` for the custom variants — paired with the report.  The success
flag of the minimizer result influences neither component. -/
def findTau_fit_return {n : ℕ} (model : ModelSel)
    (m_ones : Matrix (Fin (n+1)) (Fin (n+1)) Bool) (res : MinimizeResult) :
    (List ℚ ⊕ Matrix (Fin (n+1)) (Fin (n+1)) ℚ) × FitReport :=
  match model with
  | ModelSel.customModel => (Sum.inr (regenM m_ones res.params), fit_report res)
  | ModelSel.customMatrix => (Sum.inr (regenM m_ones res.params), fit_report res)
  | _ => (Sum.inl res.params, fit_report res)

/-- The console output of `Model.findTau_fit` (lines 602-604): the only
reaction to a non-successful minimizer result is a printed message. -/
def findTau_fit_console (res : MinimizeResult) : List String :=
  if res.success = false then ["Fitting unsuccesful!"] else []

/-- Trivial all-false 1x1 mask, for instantiating the DAS branch of
`findTau_fit_return` (the mask is unused on that branch). -/
def mask0 : Matrix (Fin 1) (Fin 1) Bool := fun _ _ => false

/-- The 2x2 mask of a sequential two-species scheme: a single conversion,
species 0 into species 1. -/
def maskSeq2 : Matrix (Fin 2) (Fin 2) Bool := !![false, false; true, false]

/-- A 2x2 custom lifetime matrix: one conversion (cell (1,0), lifetime 3)
and a populated sink row with a terminal decay (cell (1,1), lifetime 5). -/
def tauSink2 : Matrix (Fin 2) (Fin 2) ℚ := !![0, 0; 3, 5]

/-- The flattening that claim C9 describes, written from its words: the
populated off-diagonal cells only, in row-major scan order, skipping
structural zeros and the diagonal cell of the terminal (last) species. -/
def flatten_claimC9 {n : ℕ} (tau_mat : Matrix (Fin (n+1)) (Fin (n+1)) ℚ) : List ℚ :=
  ((rowMajor (n+1)).filter fun p => decide (p.1 ≠ p.2 ∧ tau_mat p.1 p.2 ≠ 0)).map
    fun p => |tau_mat p.1 p.2|

end EfsTA

/-- C3: the claim says `findTau_fit` creates one optimizer parameter per
`preparam` entry, carrying that entry's start value, bounds and vary flag.
Evaluating the code at the repository's own test input
`preparam = [(1.2, True), (160, True), (900000, False)]` (test_Controller.py,
`Test_calcDAS`): exactly one parameter is created for the three entries, and
it carries the start value `160` of entry 1 — not entry 0's `1.2` — with
bounds taken from `bounds[0]`.  The repository's test asserts
`len(tau_fit) == 3`, which this code cannot produce. -/
theorem EfsTA.findTau_fit_single_param_bug :
    (EfsTA.findTau_fit_params [((6:ℚ)/5, true), (160, true), (900000, false)]
        (EfsTA.getTauBounds EfsTA.ModelSel.das [] [] 3)).length = 1
    ∧ [((6:ℚ)/5, true), (160, true), (900000, false)].length = 3
    ∧ ((EfsTA.findTau_fit_params [((6:ℚ)/5, true), (160, true), (900000, false)]
        (EfsTA.getTauBounds EfsTA.ModelSel.das [] [] 3)).getD 0
          ⟨0, Option.none, Option.none, false⟩).value = 160
    ∧ ((EfsTA.findTau_fit_params [((6:ℚ)/5, true), (160, true), (900000, false)]
        (EfsTA.getTauBounds EfsTA.ModelSel.das [] [] 3)).getD 0
          ⟨0, Option.none, Option.none, false⟩).lo = some (1/100) :=
  ⟨rfl, rfl, rfl, rfl⟩

/-- C7 counterexample: the claim says the return value of `findTau_fit` is
tagged as unconverged on minimizer failure.  At a concrete input, the
returned value for a failed result (`success = false`) is identical to the
one for a successful result with the same parameters and statistics — the
caller cannot distinguish them; only the console output differs. -/
theorem EfsTA.findTau_fit_untagged_counterexample :
    EfsTA.findTau_fit_return EfsTA.ModelSel.das EfsTA.mask0 ⟨true, [5], 10, 0⟩
      = EfsTA.findTau_fit_return EfsTA.ModelSel.das EfsTA.mask0 ⟨false, [5], 10, 0⟩
    ∧ EfsTA.findTau_fit_console ⟨false, [5], 10, 0⟩ = ["Fitting unsuccesful!"]
    ∧ EfsTA.findTau_fit_console ⟨true, [5], 10, 0⟩ = [] :=
  ⟨rfl, rfl, rfl⟩

/-- C7 (amended): on minimizer non-success `findTau_fit` still returns the
best-found parameters together with the lmfit report, but the return value
carries no unconverged tag — it coincides with the return value of a
successful fit with the same parameters and statistics — and the failure is
signalled only through the console side channel. -/
theorem EfsTA.findTau_fit_failure_flag (res : EfsTA.MinimizeResult) :
    (EfsTA.findTau_fit_return EfsTA.ModelSel.das EfsTA.mask0 res).1 = Sum.inl res.params
    ∧ (EfsTA.findTau_fit_return EfsTA.ModelSel.das EfsTA.mask0 res).2 = EfsTA.fit_report res
    ∧ EfsTA.findTau_fit_return EfsTA.ModelSel.das EfsTA.mask0 { res with success := true }
        = EfsTA.findTau_fit_return EfsTA.ModelSel.das EfsTA.mask0 { res with success := false }
    ∧ EfsTA.findTau_fit_console res
        = (if res.success = false then ["Fitting unsuccesful!"] else []) :=
  ⟨rfl, rfl, rfl, rfl⟩

/-- C6: the claim demands that when the IVP integration fails to converge,
`solveDiff` propagate an `IntegrationFailure` error rather than silently
returning the truncated concentration matrix.  Evaluating the code on a
failed solver outcome (`status = -1`, `y` truncated to 2 of the 3 requested
delay points): `solveDiff` returns exactly the truncated array — its return
type has no error channel and the solver status is never read. -/
theorem EfsTA.solveDiff_returns_partial_on_failure :
    EfsTA.solveDiff !![(-1 : ℚ)] "BDF" (fun _ _ => EfsTA.failing_ivp) = [[1, 1/2]]
    ∧ EfsTA.failing_ivp.status = -1
    ∧ (EfsTA.failing_ivp.y.getD 0 []).length = 2
    ∧ EfsTA.delays_example.length = 3 :=
  ⟨rfl, rfl, rfl, rfl⟩

/-- C10: for every input, `Controller.calcDAS` and `Controller.calcSAS` pass
eight positional arguments to `Model`, whose `__init__` declares six
parameters, so the construction raises `TypeError` before any fitting
(`fitting` is never invoked, whatever it is). -/
theorem EfsTA.calc_entry_points_type_error
    (a b c d e f g h : EfsTA.PyVal) {α β : Type}
    (fit1 : List EfsTA.PyVal → α) (fit2 : List EfsTA.PyVal → β) :
    EfsTA.calcDAS a b c d e f fit1 = Except.error EfsTA.PyError.typeError
    ∧ EfsTA.calcSAS a b c d e g f h fit2 = Except.error EfsTA.PyError.typeError :=
  ⟨rfl, rfl⟩

namespace EfsTA

lemma updCell_self {m : ℕ} (M : Matrix (Fin m) (Fin m) ℚ) (i j : Fin m) (v : ℚ) :
    updCell M i j v i j = v := by
  simp [updCell]

lemma updCell_ne {m : ℕ} {M : Matrix (Fin m) (Fin m) ℚ} {i j a b : Fin m} {v : ℚ}
    (h : ¬(a = i ∧ b = j)) : updCell M i j v a b = M a b := by
  simp only [updCell, if_neg h]

lemma sum_col_updCell_ne {m : ℕ} {M : Matrix (Fin m) (Fin m) ℚ} {i j c : Fin m} {v : ℚ}
    (h : j ≠ c) : ∑ x, updCell M i j v x c = ∑ x, M x c := by
  refine Finset.sum_congr rfl fun x _ => updCell_ne ?_
  rintro ⟨-, h2⟩
  exact h h2.symm

lemma sum_col_updCell_self {m : ℕ} {M : Matrix (Fin m) (Fin m) ℚ} {a c : Fin m} {v : ℚ} :
    ∑ x, updCell M a c v x c = (∑ x, M x c) + (v - M a c) := by
  have h : ∀ x, updCell M a c v x c = Function.update (fun y => M y c) a v x := by
    intro x
    simp [updCell, Function.update_apply]
  rw [Finset.sum_congr rfl fun x _ => h x,
      Finset.sum_update_of_mem (Finset.mem_univ a),
      Finset.sum_eq_sum_diff_singleton_add (Finset.mem_univ a) (fun y => M y c)]
  ring

lemma foldl_filter_guard {α β : Type} (g : β → Bool) (f : α → β → α) :
    ∀ (l : List β) (init : α),
      l.foldl (fun st p => if g p then f st p else st) init = (l.filter g).foldl f init := by
  intro l
  induction l with
  | nil => intro init; rfl
  | cons p tl ih =>
    intro init
    by_cases hp : g p
    · simp only [List.foldl_cons, List.filter_cons, hp, if_pos, ih]
    · simp only [List.foldl_cons, List.filter_cons, hp, if_neg, ih, Bool.false_eq_true,
        ite_false]

lemma regenStep_untouched {n : ℕ} (tau : List ℚ)
    (st : Matrix (Fin (n+1)) (Fin (n+1)) ℚ × ℕ) (p q : Fin (n+1) × Fin (n+1))
    (hq : q.1 ≠ q.2 ∨ (q.1 = Fin.last n ∧ q.2 = Fin.last n)) (hne : q ≠ p) :
    (regenStep tau st p).1 q.1 q.2 = st.1 q.1 q.2 := by
  have h1 : ¬(q.1 = p.1 ∧ q.2 = p.2) := by
    rintro ⟨ha, hb⟩
    exact hne (Prod.ext ha hb)
  unfold regenStep
  dsimp only
  by_cases hp2 : p.2 ≠ Fin.last n
  · have h2 : ¬(q.1 = p.2 ∧ q.2 = p.2) := by
      rintro ⟨ha, hb⟩
      rcases hq with hqd | ⟨hql, hqr⟩
      · exact hqd (ha.trans hb.symm)
      · exact hp2 (hb ▸ hqr)
    rw [if_pos hp2, updCell_ne h2, updCell_ne h1]
  · rw [if_neg hp2, updCell_ne h1]

lemma foldl_untouched {n : ℕ} (tau : List ℚ) (q : Fin (n+1) × Fin (n+1))
    (hq : q.1 ≠ q.2 ∨ (q.1 = Fin.last n ∧ q.2 = Fin.last n)) :
    ∀ (L : List (Fin (n+1) × Fin (n+1))) (st : Matrix (Fin (n+1)) (Fin (n+1)) ℚ × ℕ),
      q ∉ L → (L.foldl (regenStep tau) st).1 q.1 q.2 = st.1 q.1 q.2 := by
  intro L
  induction L with
  | nil => intro st _; rfl
  | cons p tl ih =>
    intro st hnot
    rw [List.foldl_cons, ih _ (fun h => hnot (List.mem_cons_of_mem p h)),
        regenStep_untouched tau st p q hq (fun h => hnot (h ▸ List.mem_cons_self p tl))]

lemma foldl_colsum {n : ℕ} (tau : List ℚ) (c : Fin (n+1)) (hc : c ≠ Fin.last n) :
    ∀ (L : List (Fin (n+1) × Fin (n+1))) (M₀ : Matrix (Fin (n+1)) (Fin (n+1)) ℚ) (a₀ : ℕ),
      L.Nodup →
      (∀ p ∈ L, p.1 = p.2 → p.1 = Fin.last n) →
      (∀ p ∈ L, p.1 ≠ p.2 → M₀ p.1 p.2 = 0) →
      ∑ x, (L.foldl (regenStep tau) (M₀, a₀)).1 x c = ∑ x, M₀ x c := by
  intro L
  induction L with
  | nil => intro M₀ a₀ _ _ _; rfl
  | cons p tl ih =>
    intro M₀ a₀ hnd hdiag hzero
    have hhead : p ∈ p :: tl := List.mem_cons_self p tl
    have hzero' : ∀ r ∈ tl, r.1 ≠ r.2 → (regenStep tau (M₀, a₀) p).1 r.1 r.2 = 0 := by
      intro r hr hrne
      have hrp : r ≠ p := by
        intro h
        subst h
        exact (List.nodup_cons.mp hnd).1 hr
      rw [regenStep_untouched tau (M₀, a₀) p r (Or.inl hrne) hrp]
      exact hzero r (List.mem_cons_of_mem p hr) hrne
    have hstep : tl.foldl (regenStep tau) (regenStep tau (M₀, a₀) p)
        = tl.foldl (regenStep tau) ((regenStep tau (M₀, a₀) p).1, a₀ + 1) := rfl
    rw [List.foldl_cons, hstep,
        ih ((regenStep tau (M₀, a₀) p).1) (a₀ + 1) (List.nodup_cons.mp hnd).2
          (fun r hr => hdiag r (List.mem_cons_of_mem p hr)) hzero']
    unfold regenStep
    dsimp only
    by_cases hp1 : p.1 = p.2
    · have hlast : p.1 = Fin.last n := hdiag p hhead hp1
      have hp2last : p.2 = Fin.last n := hp1 ▸ hlast
      rw [if_neg (by simp [hp2last])]
      exact sum_col_updCell_ne (by rw [hp2last]; exact fun h => hc h.symm)
    · by_cases hcol : p.2 = c
      · subst hcol
        have hp2 : p.2 ≠ Fin.last n := hc
        rw [if_pos hp2, sum_col_updCell_self, sum_col_updCell_self,
            hzero p hhead hp1]
        ring
      · by_cases hp2 : p.2 ≠ Fin.last n
        · rw [if_pos hp2, sum_col_updCell_ne hcol, sum_col_updCell_ne hcol]
        · rw [if_neg hp2, sum_col_updCell_ne hcol]

lemma rowMajor_nodup (m : ℕ) : (rowMajor m).Nodup :=
  (List.nodup_finRange m).product (List.nodup_finRange m)

lemma mem_rowMajor {m : ℕ} (p : Fin m × Fin m) : p ∈ rowMajor m := by
  obtain ⟨i, j⟩ := p
  unfold rowMajor
  exact List.pair_mem_product.mpr ⟨List.mem_finRange i, List.mem_finRange j⟩

lemma maskedCells_nodup {n : ℕ} (m_ones : Matrix (Fin (n+1)) (Fin (n+1)) Bool) :
    (maskedCells m_ones).Nodup :=
  (rowMajor_nodup (n+1)).filter _

lemma mem_maskedCells {n : ℕ} (m_ones : Matrix (Fin (n+1)) (Fin (n+1)) Bool)
    (p : Fin (n+1) × Fin (n+1)) :
    p ∈ maskedCells m_ones ↔ m_ones p.1 p.2 = true := by
  unfold maskedCells
  rw [List.mem_filter]
  simp [mem_rowMajor]

lemma regenMPre_eq_foldl {n : ℕ} (m_ones : Matrix (Fin (n+1)) (Fin (n+1)) Bool)
    (tau : List ℚ) :
    regenMPre m_ones tau = ((maskedCells m_ones).foldl (regenStep tau) (0, 0)).1 := by
  unfold regenMPre maskedCells
  rw [foldl_filter_guard]

end EfsTA

/-- C2: the kinetic matrix `regenM` rebuilds from a structural mask (with no
marked diagonal cell except possibly the last one, as `getM_lin` produces)
and a flat parameter vector of matching length satisfies the conservation
invariant: in every column `c` other than the terminal sink column, the
off-diagonal entries sum to the negation of the diagonal entry `K c c`; and
the bottom-right diagonal cell is negated last (`M[-1][-1] *= -1`), turning
it into a decay rate out of the system. -/
theorem EfsTA.regenM_column_conservation {n : ℕ}
    (m_ones : Matrix (Fin (n+1)) (Fin (n+1)) Bool) (tau : List ℚ)
    (hdiag : ∀ i, m_ones i i = true → i = Fin.last n)
    (hlen : tau.length = (EfsTA.maskedCells m_ones).length)
    (c : Fin (n+1)) (hc : c ≠ Fin.last n) :
    ((∑ i ∈ Finset.univ.erase c, EfsTA.regenM m_ones tau i c)
        = -(EfsTA.regenM m_ones tau c c))
    ∧ EfsTA.regenM m_ones tau (Fin.last n) (Fin.last n)
        = -(EfsTA.regenMPre m_ones tau (Fin.last n) (Fin.last n)) := by
  constructor
  · have hsum : ∑ x, EfsTA.regenM m_ones tau x c = 0 := by
      unfold EfsTA.regenM
      rw [EfsTA.sum_col_updCell_ne (fun h => hc h.symm), EfsTA.regenMPre_eq_foldl,
          EfsTA.foldl_colsum tau c hc (EfsTA.maskedCells m_ones) 0 0
            (EfsTA.maskedCells_nodup m_ones)
            (fun p hp hdp => by
              have h := (EfsTA.mem_maskedCells m_ones p).mp hp
              rw [← hdp] at h
              exact hdiag p.1 h)
            (fun p _ _ => rfl)]
      simp
    have h2 := Finset.add_sum_erase Finset.univ
      (fun x => EfsTA.regenM m_ones tau x c) (Finset.mem_univ c)
    linarith [hsum, h2]
  · exact EfsTA.updCell_self _ _ _ _

/-- C2 witness: the sequential two-species mask (one conversion, species 0
into species 1) with flat vector `[5]`: in column 0 the off-diagonal sum `5`
equals the negation of the diagonal entry `-5`. -/
theorem EfsTA.regenM_column_conservation_witness :
    (∀ i : Fin 2, EfsTA.maskSeq2 i i = true → i = Fin.last 1)
    ∧ [(5 : ℚ)].length = (EfsTA.maskedCells EfsTA.maskSeq2).length
    ∧ (0 : Fin 2) ≠ Fin.last 1
    ∧ (∑ i ∈ Finset.univ.erase (0 : Fin 2), EfsTA.regenM EfsTA.maskSeq2 [(5 : ℚ)] i 0)
        = -(EfsTA.regenM EfsTA.maskSeq2 [(5 : ℚ)] 0 0) :=
  ⟨by decide, by decide, by decide,
   (EfsTA.regenM_column_conservation EfsTA.maskSeq2 [(5 : ℚ)] (by decide) (by decide) 0
      (by decide)).1⟩


namespace EfsTA

lemma regenStep_self {n : ℕ} (tau : List ℚ)
    (st : Matrix (Fin (n+1)) (Fin (n+1)) ℚ × ℕ) (q : Fin (n+1) × Fin (n+1))
    (hq : q.1 ≠ q.2 ∨ (q.1 = Fin.last n ∧ q.2 = Fin.last n)) :
    (regenStep tau st q).1 q.1 q.2 = tau.getD st.2 0 := by
  unfold regenStep
  dsimp only
  by_cases hp2 : q.2 ≠ Fin.last n
  · have hne : ¬(q.1 = q.2 ∧ q.2 = q.2) := by
      rintro ⟨h1, -⟩
      rcases hq with hqd | ⟨-, hqr⟩
      · exact hqd h1
      · exact hp2 hqr
    rw [if_pos hp2, updCell_ne hne, updCell_self]
  · rw [if_neg hp2, updCell_self]

lemma foldl_snd {n : ℕ} (tau : List ℚ) :
    ∀ (L : List (Fin (n+1) × Fin (n+1))) (st : Matrix (Fin (n+1)) (Fin (n+1)) ℚ × ℕ),
      (L.foldl (regenStep tau) st).2 = st.2 + L.length := by
  intro L
  induction L with
  | nil => intro st; rfl
  | cons p tl ih =>
    intro st
    rw [List.foldl_cons, ih, List.length_cons]
    have h : (regenStep tau st p).2 = st.2 + 1 := rfl
    rw [h]
    omega

lemma foldl_marked {n : ℕ} (tau : List ℚ) (q : Fin (n+1) × Fin (n+1))
    (hq : q.1 ≠ q.2 ∨ (q.1 = Fin.last n ∧ q.2 = Fin.last n))
    (L₁ L₂ : List (Fin (n+1) × Fin (n+1))) (hq2 : q ∉ L₂)
    (M₀ : Matrix (Fin (n+1)) (Fin (n+1)) ℚ) (a₀ : ℕ) :
    ((L₁ ++ q :: L₂).foldl (regenStep tau) (M₀, a₀)).1 q.1 q.2
      = tau.getD (a₀ + L₁.length) 0 := by
  rw [List.foldl_append, List.foldl_cons,
      foldl_untouched tau q hq L₂ _ hq2,
      regenStep_self tau _ q hq, foldl_snd tau L₁ (M₀, a₀)]

lemma getD_append_cons {α : Type} (L₁ L₂ : List α) (x d : α) :
    (L₁ ++ x :: L₂).getD L₁.length d = x := by
  induction L₁ with
  | nil => rfl
  | cons a tl ih => simpa using ih

lemma getM_lin_eq_map {n : ℕ} (tau_mat : Matrix (Fin (n+1)) (Fin (n+1)) ℚ) :
    getM_lin tau_mat = (maskedCells (M_ones tau_mat)).map
      fun p => 1 / |k_guess_zeroed tau_mat p.1 p.2| := by
  unfold getM_lin M_lin
  rw [List.map_map]
  rfl

lemma k_guess_zeroed_ne_zero_iff {n : ℕ} (tau_mat : Matrix (Fin (n+1)) (Fin (n+1)) ℚ)
    (i j : Fin (n+1)) (hconv : i ≠ j ∨ (i = Fin.last n ∧ j = Fin.last n)) :
    k_guess_zeroed tau_mat i j ≠ 0 ↔ tau_mat i j ≠ 0 := by
  unfold k_guess_zeroed
  have h1 : ¬(i = j ∧ i ≠ Fin.last n) := by
    rintro ⟨hij, hil⟩
    rcases hconv with hd | ⟨hl, -⟩
    · exact hd hij
    · exact hil hl
  rw [if_neg h1]
  by_cases h2 : tau_mat i j = 0
  · simp [h2]
  · simp [h2, one_div, inv_eq_zero]

end EfsTA

/-- C4: inflating the flattened parameter vector with the captured mask —
`regenM` applied to the mask and flat vector that `getM_lin` produces —
yields a matrix whose populated conversion cells (the off-diagonal cells,
plus the terminal diagonal cell that holds the sink's decay) are exactly the
populated conversion cells of the original custom matrix. -/
theorem EfsTA.inflate_flatten_sparsity {n : ℕ}
    (tau_mat : Matrix (Fin (n+1)) (Fin (n+1)) ℚ)
    (hsink : ∃ j, tau_mat (Fin.last n) j ≠ 0)
    (i j : Fin (n+1)) (hconv : i ≠ j ∨ (i = Fin.last n ∧ j = Fin.last n)) :
    (EfsTA.regenM (EfsTA.M_ones tau_mat) (EfsTA.getM_lin tau_mat) i j ≠ 0
      ↔ tau_mat i j ≠ 0) := by
  have hkgz := EfsTA.k_guess_zeroed_ne_zero_iff tau_mat i j hconv
  have hregen : EfsTA.regenM (EfsTA.M_ones tau_mat) (EfsTA.getM_lin tau_mat) i j
      = if i = Fin.last n ∧ j = Fin.last n then
          -(EfsTA.regenMPre (EfsTA.M_ones tau_mat) (EfsTA.getM_lin tau_mat)
              (Fin.last n) (Fin.last n))
        else EfsTA.regenMPre (EfsTA.M_ones tau_mat) (EfsTA.getM_lin tau_mat) i j := by
    simp [EfsTA.regenM, EfsTA.updCell]
  by_cases ht : tau_mat i j = 0
  · have hk0 : EfsTA.k_guess_zeroed tau_mat i j = 0 := by
      by_contra h
      exact (hkgz.mp h) ht
    have hnotmem : (i, j) ∉ EfsTA.maskedCells (EfsTA.M_ones tau_mat) := by
      rw [EfsTA.mem_maskedCells]
      simp [EfsTA.M_ones, hk0]
    have hpre : EfsTA.regenMPre (EfsTA.M_ones tau_mat) (EfsTA.getM_lin tau_mat) i j = 0 := by
      rw [EfsTA.regenMPre_eq_foldl]
      exact EfsTA.foldl_untouched (EfsTA.getM_lin tau_mat) (i, j) hconv
        (EfsTA.maskedCells (EfsTA.M_ones tau_mat)) (0, 0) hnotmem
    rw [hregen]
    by_cases hll : i = Fin.last n ∧ j = Fin.last n
    · obtain ⟨h1, h2⟩ := hll
      subst h1
      subst h2
      rw [if_pos ⟨rfl, rfl⟩, hpre]
      simp [ht]
    · rw [if_neg hll, hpre]
      simp [ht]
  · have hmem : (i, j) ∈ EfsTA.maskedCells (EfsTA.M_ones tau_mat) := by
      rw [EfsTA.mem_maskedCells]
      simp only [EfsTA.M_ones, decide_eq_true_eq]
      exact hkgz.mpr ht
    obtain ⟨L₁, L₂, hdecomp⟩ := List.append_of_mem hmem
    have hnd := EfsTA.maskedCells_nodup (EfsTA.M_ones tau_mat)
    rw [hdecomp] at hnd
    have hq2 : (i, j) ∉ L₂ := (List.nodup_cons.mp (List.nodup_append.mp hnd).2.1).1
    have hpre : EfsTA.regenMPre (EfsTA.M_ones tau_mat) (EfsTA.getM_lin tau_mat) i j
        = 1 / |EfsTA.k_guess_zeroed tau_mat i j| := by
      rw [EfsTA.regenMPre_eq_foldl, hdecomp,
          EfsTA.foldl_marked (EfsTA.getM_lin tau_mat) (i, j) hconv L₁ L₂ hq2 0 0,
          Nat.zero_add, EfsTA.getM_lin_eq_map, hdecomp, List.map_append, List.map_cons]
      have hlen : L₁.length
          = (L₁.map fun p => 1 / |EfsTA.k_guess_zeroed tau_mat p.1 p.2|).length :=
        (List.length_map _ _).symm
      rw [hlen, EfsTA.getD_append_cons]
    have hval : (1 : ℚ) / |EfsTA.k_guess_zeroed tau_mat i j| ≠ 0 :=
      one_div_ne_zero (abs_ne_zero.mpr (hkgz.mpr ht))
    rw [hregen]
    by_cases hll : i = Fin.last n ∧ j = Fin.last n
    · obtain ⟨h1, h2⟩ := hll
      subst h1
      subst h2
      rw [if_pos ⟨rfl, rfl⟩, hpre, neg_ne_zero]
      exact iff_of_true hval ht
    · rw [if_neg hll, hpre]
      exact iff_of_true hval ht

/-- C4 witness: the custom matrix `!![0, 0; 3, 5]` (conversion `0 → 1` with
lifetime 3, sink decay 5): its sink row is populated, and the round trip
through `getM_lin`/`regenM` leaves the conversion cell `(1,0)` populated
exactly as in the original. -/
theorem EfsTA.inflate_flatten_sparsity_witness :
    (∃ j : Fin 2, EfsTA.tauSink2 (Fin.last 1) j ≠ 0)
    ∧ ((1 : Fin 2) ≠ (0 : Fin 2)
        ∨ ((1 : Fin 2) = Fin.last 1 ∧ (0 : Fin 2) = Fin.last 1))
    ∧ (EfsTA.regenM (EfsTA.M_ones EfsTA.tauSink2) (EfsTA.getM_lin EfsTA.tauSink2) 1 0 ≠ 0
        ↔ EfsTA.tauSink2 1 0 ≠ 0) :=
  ⟨⟨0, by decide⟩, Or.inl (by decide),
   EfsTA.inflate_flatten_sparsity EfsTA.tauSink2 ⟨0, by decide⟩ 1 0 (Or.inl (by decide))⟩

/-- C9 (amended): `getM_lin` returns the absolute lifetimes of the custom
matrix as a flat ordered list in row-major scan order over the cells,
including every populated off-diagonal cell and the populated diagonal cell
of the topologically terminal (last) species, and skipping structural zeros
and the diagonal cells of all non-terminal species. -/
theorem EfsTA.getM_lin_order {n : ℕ} (tau_mat : Matrix (Fin (n+1)) (Fin (n+1)) ℚ) :
    EfsTA.getM_lin tau_mat
      = ((EfsTA.rowMajor (n+1)).filter fun p =>
          decide (¬(p.1 = p.2 ∧ p.1 ≠ Fin.last n) ∧ tau_mat p.1 p.2 ≠ 0)).map
          fun p => |tau_mat p.1 p.2| := by
  have hpred : ∀ p ∈ EfsTA.rowMajor (n+1),
      (EfsTA.M_ones tau_mat p.1 p.2)
        = decide (¬(p.1 = p.2 ∧ p.1 ≠ Fin.last n) ∧ tau_mat p.1 p.2 ≠ 0) := by
    intro p _
    unfold EfsTA.M_ones EfsTA.k_guess_zeroed
    rw [decide_eq_decide]
    by_cases h1 : p.1 = p.2 ∧ p.1 ≠ Fin.last n
    · simp [h1]
    · by_cases h2 : tau_mat p.1 p.2 = 0
      · simp [h1, h2]
      · simp [h1, h2, one_div, inv_eq_zero]
  have hval : ∀ p ∈ (EfsTA.rowMajor (n+1)).filter
      (fun p => decide (¬(p.1 = p.2 ∧ p.1 ≠ Fin.last n) ∧ tau_mat p.1 p.2 ≠ 0)),
      1 / |EfsTA.k_guess_zeroed tau_mat p.1 p.2| = |tau_mat p.1 p.2| := by
    intro p hp
    have h2 := of_decide_eq_true (List.mem_filter.mp hp).2
    unfold EfsTA.k_guess_zeroed
    rw [if_neg h2.1, if_pos h2.2]
    simp [one_div, abs_inv, inv_inv]
  rw [EfsTA.getM_lin_eq_map]
  unfold EfsTA.maskedCells
  rw [List.filter_congr hpred, List.map_congr_left hval]

/-- C9 counterexample: the claim says the terminal species' diagonal cell is
skipped.  For `tauSink2 = !![0, 0; 3, 5]` the code returns `[3, 5]`: the
populated terminal diagonal cell `(1,1)` (the sink decay, lifetime 5) is
included, while the claim's flattening — populated off-diagonal cells only,
terminal diagonal skipped — yields `[3]`. -/
theorem EfsTA.getM_lin_claim_counterexample :
    EfsTA.getM_lin EfsTA.tauSink2 = [3, 5]
    ∧ EfsTA.flatten_claimC9 EfsTA.tauSink2 = [3]
    ∧ EfsTA.getM_lin EfsTA.tauSink2 ≠ EfsTA.flatten_claimC9 EfsTA.tauSink2 := by
  have h1 : EfsTA.getM_lin EfsTA.tauSink2 = [3, 5] := by
    rw [EfsTA.getM_lin_order]
    have hfil : ((EfsTA.rowMajor 2).filter fun p =>
        decide (¬(p.1 = p.2 ∧ p.1 ≠ Fin.last 1) ∧ EfsTA.tauSink2 p.1 p.2 ≠ 0))
        = [((1 : Fin 2), (0 : Fin 2)), (1, 1)] := by decide
    rw [hfil, List.map_cons, List.map_cons, List.map_nil]
    norm_num [EfsTA.tauSink2]
  have h2 : EfsTA.flatten_claimC9 EfsTA.tauSink2 = [3] := by
    unfold EfsTA.flatten_claimC9
    have hfil : ((EfsTA.rowMajor 2).filter fun p =>
        decide (p.1 ≠ p.2 ∧ EfsTA.tauSink2 p.1 p.2 ≠ 0))
        = [((1 : Fin 2), (0 : Fin 2))] := by decide
    rw [hfil, List.map_cons, List.map_nil]
    norm_num [EfsTA.tauSink2]
  refine ⟨h1, h2, ?_⟩
  rw [h1, h2]
  decide

namespace EfsTA

lemma frobSq_nonneg {a b : ℕ} (X : Matrix (Fin a) (Fin b) ℚ) : 0 ≤ frobSq X :=
  Finset.sum_nonneg fun _ _ => Finset.sum_nonneg fun _ _ => sq_nonneg _

lemma frobSq_add {a b : ℕ} (X Y : Matrix (Fin a) (Fin b) ℚ) :
    frobSq (X + Y) = frobSq X + 2 * minner X Y + frobSq Y := by
  unfold frobSq minner
  rw [Finset.mul_sum, ← Finset.sum_add_distrib, ← Finset.sum_add_distrib]
  refine Finset.sum_congr rfl fun i _ => ?_
  rw [Finset.mul_sum, ← Finset.sum_add_distrib, ← Finset.sum_add_distrib]
  refine Finset.sum_congr rfl fun j _ => ?_
  rw [Matrix.add_apply]
  ring

lemma minner_right_mul {w d c : ℕ} (X : Matrix (Fin w) (Fin d) ℚ)
    (Z : Matrix (Fin w) (Fin c) ℚ) (M : Matrix (Fin c) (Fin d) ℚ) :
    minner X (Z * M) = ∑ i, ∑ k, Z i k * (X * Mᵀ) i k := by
  unfold minner
  refine Finset.sum_congr rfl fun i _ => ?_
  simp only [Matrix.mul_apply, Matrix.transpose_apply, Finset.mul_sum]
  rw [Finset.sum_comm]
  refine Finset.sum_congr rfl fun k _ => Finset.sum_congr rfl fun j _ => ?_
  ring

end EfsTA

/-- C1: when `M·Mᵀ` is invertible, `calcD_tau` returns exactly
`D = A·Mᵀ·(M·Mᵀ)⁻¹`, `calcA_tau` returns `A_fit = D·M`, and this `D`
minimises the squared Frobenius distance `‖A − D'·M‖²` over all matrices
`D'` of shape `n_wavelengths × n_components` — the exact closed-form
least-squares solution, not an iterative one. -/
theorem EfsTA.calcD_tau_least_squares {w d c : ℕ}
    (A : Matrix (Fin w) (Fin d) ℚ) (M : Matrix (Fin c) (Fin d) ℚ)
    (h : (M * Mᵀ).det ≠ 0) :
    EfsTA.calcD_tau A M = Except.ok (A * Mᵀ * (M * Mᵀ)⁻¹)
    ∧ EfsTA.calcA_tau A M = Except.ok (A * Mᵀ * (M * Mᵀ)⁻¹ * M)
    ∧ ∀ D' : Matrix (Fin w) (Fin c) ℚ,
        EfsTA.frobSq (A - A * Mᵀ * (M * Mᵀ)⁻¹ * M) ≤ EfsTA.frobSq (A - D' * M) := by
  have hu : IsUnit (M * Mᵀ).det := isUnit_iff_ne_zero.mpr h
  have hinv : (M * Mᵀ).det⁻¹ • (M * Mᵀ).adjugate = (M * Mᵀ)⁻¹ := by
    rw [Matrix.inv_def, Ring.inverse_eq_inv]
  have hD : EfsTA.calcD_tau A M = Except.ok (A * Mᵀ * (M * Mᵀ)⁻¹) := by
    unfold EfsTA.calcD_tau EfsTA.npLinalgInv
    rw [if_neg h]
    simp [hinv, Except.map, Matrix.mul_assoc]
  refine ⟨hD, ?_, ?_⟩
  · unfold EfsTA.calcA_tau
    rw [hD]
    rfl
  · intro D'
    have hker : (A - A * Mᵀ * (M * Mᵀ)⁻¹ * M) * Mᵀ = 0 := by
      have h1 : A * Mᵀ * (M * Mᵀ)⁻¹ * M * Mᵀ = A * Mᵀ := by
        rw [Matrix.mul_assoc (A * Mᵀ * (M * Mᵀ)⁻¹) M Mᵀ,
            Matrix.mul_assoc (A * Mᵀ) (M * Mᵀ)⁻¹ (M * Mᵀ),
            Matrix.nonsing_inv_mul (M * Mᵀ) hu, Matrix.mul_one]
      rw [Matrix.sub_mul, h1, sub_self]
    have hdecomp : A - D' * M
        = (A - A * Mᵀ * (M * Mᵀ)⁻¹ * M) + (A * Mᵀ * (M * Mᵀ)⁻¹ - D') * M := by
      rw [Matrix.sub_mul]
      abel
    rw [hdecomp, EfsTA.frobSq_add]
    have hzero : EfsTA.minner (A - A * Mᵀ * (M * Mᵀ)⁻¹ * M)
        ((A * Mᵀ * (M * Mᵀ)⁻¹ - D') * M) = 0 := by
      rw [EfsTA.minner_right_mul, hker]
      simp
    rw [hzero]
    have hnn := EfsTA.frobSq_nonneg ((A * Mᵀ * (M * Mᵀ)⁻¹ - D') * M)
    linarith

/-- C1 witness: the 1x1 instance `A = [[3]]`, `M = [[2]]`: `M·Mᵀ = [[4]]` is
invertible and `calcD_tau` returns the closed-form solution. -/
theorem EfsTA.calcD_tau_least_squares_witness :
    ((!![(2:ℚ)] * (!![(2:ℚ)])ᵀ).det ≠ 0)
    ∧ EfsTA.calcD_tau !![(3:ℚ)] !![(2:ℚ)]
        = Except.ok (!![(3:ℚ)] * (!![(2:ℚ)])ᵀ * (!![(2:ℚ)] * (!![(2:ℚ)])ᵀ)⁻¹) :=
  ⟨by norm_num [Matrix.det_fin_one, Matrix.mul_apply, Fin.sum_univ_one, Matrix.vecHead, Matrix.transpose_apply],
   (EfsTA.calcD_tau_least_squares !![(3:ℚ)] !![(2:ℚ)]
     (by norm_num [Matrix.det_fin_one, Matrix.mul_apply, Fin.sum_univ_one, Matrix.vecHead, Matrix.transpose_apply])).1⟩

/-- C5: when the rows of the basis `M` are linearly dependent (there is a
nonzero left null vector — e.g. two identical rows, as produced by two
identical rate constants), `M·Mᵀ` is exactly singular, and `calcD_tau`
signals the singular-matrix error (the spec's SingularBasis) rather than
returning a numeric amplitude matrix. -/
theorem EfsTA.calcD_tau_singular {w d c : ℕ}
    (A : Matrix (Fin w) (Fin d) ℚ) (M : Matrix (Fin c) (Fin d) ℚ)
    (h : ∃ v : Fin c → ℚ, v ≠ 0 ∧ Matrix.vecMul v M = 0) :
    EfsTA.calcD_tau A M = Except.error EfsTA.LinAlgError.singularMatrix := by
  obtain ⟨v, hv0, hvM⟩ := h
  have hdet : (M * Mᵀ).det = 0 := by
    rw [← Matrix.exists_vecMul_eq_zero_iff]
    exact ⟨v, hv0, by rw [← Matrix.vecMul_vecMul, hvM, Matrix.zero_vecMul]⟩
  unfold EfsTA.calcD_tau EfsTA.npLinalgInv
  rw [if_pos hdet]
  rfl

/-- C5 witness: a basis whose two rows are identical (`M = [[1], [1]]`, the
degenerate two-identical-rates shape): `calcD_tau` signals the singular
error on it. -/
theorem EfsTA.calcD_tau_singular_witness :
    (![(1:ℚ), -1] ≠ 0 ∧ Matrix.vecMul ![(1:ℚ), -1] !![(1:ℚ); 1] = 0)
    ∧ EfsTA.calcD_tau !![(5:ℚ)] !![(1:ℚ); 1]
        = Except.error EfsTA.LinAlgError.singularMatrix :=
  ⟨⟨by decide, by
      funext j
      simp [Matrix.vecMul, Matrix.dotProduct, Fin.sum_univ_two]⟩,
   EfsTA.calcD_tau_singular !![(5:ℚ)] !![(1:ℚ); 1]
     ⟨![(1:ℚ), -1], by decide, by
        funext j
        simp [Matrix.vecMul, Matrix.dotProduct, Fin.sum_univ_two]⟩⟩

/-- C8: a rate constant of exactly 0 is the lifetime limit `τ → ∞` (the
claim's own parenthetical).  In that limit the component's `genE_tau` row
tends to the constant value 1 at every delay; for any positive finite
lifetime the entry stays within `(0, 1]` on a nonnegative delay axis, so no
overflow and no division error can occur; and (last conjunct, by
computation) component `i`'s row of `genE_tau` depends only on `tau[i]`, so
the single-component statement covers every component of a longer lifetime
vector. -/
theorem EfsTA.genE_tau_zero_rate (delays : List ℝ) (j : Fin delays.length)
    (hd : 0 ≤ delays.get j) :
    Filter.Tendsto (fun t : ℝ => EfsTA.genE_tau [t] delays (0 : Fin 1) j)
      Filter.atTop (nhds 1)
    ∧ (∀ t : ℝ, 0 < t →
        0 < EfsTA.genE_tau [t] delays (0 : Fin 1) j ∧ EfsTA.genE_tau [t] delays (0 : Fin 1) j ≤ 1)
    ∧ ∀ (tau : List ℝ) (i : Fin tau.length),
        EfsTA.genE_tau tau delays i j = EfsTA.genE_tau [tau.get i] delays (0 : Fin 1) j := by
  refine ⟨?_, ?_, fun tau i => rfl⟩
  · have h1 : Filter.Tendsto (fun t : ℝ => -(delays.get j) * t⁻¹) Filter.atTop
        (nhds (-(delays.get j) * 0)) :=
      Filter.Tendsto.const_mul _ tendsto_inv_atTop_zero
    have h2 : Filter.Tendsto (fun t : ℝ => -(delays.get j) / t) Filter.atTop (nhds 0) := by
      simpa [div_eq_mul_inv] using h1
    have h3 := (Real.continuous_exp.tendsto 0).comp h2
    simpa [Function.comp_def, Real.exp_zero, EfsTA.genE_tau] using h3
  · intro t ht
    refine ⟨Real.exp_pos _, ?_⟩
    have hle : -(delays.get j) / t ≤ 0 :=
      div_nonpos_of_nonpos_of_nonneg (neg_nonpos.mpr hd) (le_of_lt ht)
    calc EfsTA.genE_tau [t] delays (0 : Fin 1) j = Real.exp (-(delays.get j) / t) := rfl
      _ ≤ Real.exp 0 := Real.exp_le_exp.mpr hle
      _ = 1 := Real.exp_zero

/-- C8 witness: on the delay axis `[2]` (entry nonnegative), the
single-component basis row tends to 1 as the lifetime tends to infinity. -/
theorem EfsTA.genE_tau_zero_rate_witness :
    ((0:ℝ) ≤ [(2:ℝ)].get (0 : Fin 1))
    ∧ Filter.Tendsto (fun t : ℝ => EfsTA.genE_tau [t] [(2:ℝ)] (0 : Fin 1) (0 : Fin 1))
        Filter.atTop (nhds 1) :=
  ⟨by show (0:ℝ) ≤ 2; norm_num,
   (EfsTA.genE_tau_zero_rate [(2:ℝ)] (0 : Fin 1) (by show (0:ℝ) ≤ 2; norm_num)).1⟩
